import Mathlib

/-!
Verification of the `dbgcmd` crate's `Console` state machine (src/lib.rs),
in its debug-enabled configuration (`debug_assertions` set, which is the only
configuration in which the real state machine is compiled; in that
configuration integer overflow checks are active, so `usize` underflow
panics).

Rust panics (out-of-range `VecDeque` indexing in `entry`, `usize` underflow
in `up`) are modelled by `Option`: `none` means the operation panics.
-/

set_option maxHeartbeats 1000000

/-- The `Console` struct (enabled configuration): visibility flag, live entry
buffer, history of confirmed entries (front = newest), optional browsing
cursor into the history. -/
structure Console where
  shown : Bool
  entry : String
  history : List String
  cursor : Option Nat
deriving DecidableEq

/-- `Console::new`, i.e. `Default::default()`: hidden, empty buffer, empty
history, no cursor. -/
def Console.new : Console := ⟨false, "", [], none⟩

/-- `Console::entry`: the displayed text. When browsing, `self.history[n]`
panics (`none`) if `n` is out of range of the `VecDeque`. -/
def Console.entry? (c : Console) : Option String :=
  match c.cursor with
  | some n => c.history.get? n
  | none => some c.entry

/-- `Console::history_len`. -/
def Console.history_len (c : Console) : Nat := c.history.length

/-- `Console::set_entry`: replaces the buffer and resets the cursor. -/
def Console.set_entry (c : Console) (entry : String) : Console :=
  { c with entry := entry, cursor := none }

/-- The block repeated at the head of `receive_char`, `receive_text` and
`backspace`: `if self.cursor.is_some() { self.entry = self.entry().to_owned();
self.cursor = None; }` — fork the browsed history entry into the buffer. -/
def Console.fork (c : Console) : Option Console :=
  if c.cursor.isSome then
    match c.entry? with
    | none => none
    | some e => some { c with entry := e, cursor := none }
  else some c

/-- `Console::receive_char`: fork if browsing, then `self.entry.push(ch)`. -/
def Console.receive_char (c : Console) (ch : Char) : Option Console :=
  (c.fork).map fun c' => { c' with entry := c'.entry.push ch }

/-- `Console::receive_text`: fork if browsing, then `self.entry.push_str(text)`. -/
def Console.receive_text (c : Console) (text : String) : Option Console :=
  (c.fork).map fun c' => { c' with entry := c'.entry ++ text }

/-- `Console::receive_char_if`. -/
def Console.receive_char_if (c : Console) (ch : Char) (filter : Char → Bool) :
    Option (Console × Bool) :=
  if filter ch then (c.receive_char ch).map (fun c' => (c', true))
  else some (c, false)

/-- `Console::receive_text_if`. -/
def Console.receive_text_if (c : Console) (text : String) (filter : String → Bool) :
    Option (Console × Bool) :=
  if filter text then (c.receive_text text).map (fun c' => (c', true))
  else some (c, false)

/-- `Console::backspace`: fork if browsing, then `self.entry.pop()` (removes
the last character; no-op on an empty string). -/
def Console.backspace (c : Console) : Option Console :=
  (c.fork).map fun c' => { c' with entry := c'.entry.dropRight 1 }

/-- `Console::clear`: `self.entry.clear()`. -/
def Console.clear (c : Console) : Console := { c with entry := "" }

/-- `Console::clear_history`: `self.history.clear()`. Does not touch the cursor. -/
def Console.clear_history (c : Console) : Console := { c with history := [] }

/-- `Console::up`. Note the `None` arm of the source's `match` does not test
whether the history is empty, and the guard `n < self.history.len() - 1` of
the `Some(n)` arm underflows (panics, `none`) when the history is empty. -/
def Console.up (c : Console) : Option (Console × Bool) :=
  match c.cursor with
  | none => some ({ c with cursor := some 0 }, true)
  | some n =>
    if c.history.length = 0 then none
    else if n < c.history.length - 1 then some ({ c with cursor := some (n + 1) }, true)
    else some (c, false)

/-- `Console::down`: `Some(n) if n > 0 → (Some(n-1), true)`, otherwise
`prev → (None, prev.is_some())`. Total. -/
def Console.down (c : Console) : Console × Bool :=
  match c.cursor with
  | some n =>
    if 0 < n then ({ c with cursor := some (n - 1) }, true)
    else ({ c with cursor := none }, true)
  | none => ({ c with cursor := none }, false)

/-- Termination measure helper: `0` for the live state, `n + 1` when the
cursor sits at history index `n` (how far the cursor is from the live state). -/
def Console.cursorSucc (c : Console) : Nat :=
  match c.cursor with
  | none => 0
  | some n => n + 1

/-- The loop of `Console::up_deduped`:
`while self.up() && self.entry() == starting_entry {}` (`&&` short-circuits,
so `entry()` is only read after a successful move). Returns the state after
the loop, or `none` if an iteration panics. -/
def Console.upDedupLoop (c : Console) (start : String) : Option Console :=
  match h : c.up with
  | none => none
  | some (c', moved) =>
    if hm : moved then
      match h2 : c'.entry? with
      | none => none
      | some e => if e = start then Console.upDedupLoop c' start else some c'
    else some c'
termination_by c.history.length - c.cursorSucc
decreasing_by
  simp only [Console.up] at h
  rcases hcur : c.cursor with _ | n <;> rw [hcur] at h
  · obtain ⟨rfl, -⟩ : { c with cursor := some 0 } = c' ∧ moved = true := by
      simpa using h
    obtain ⟨hlt, -⟩ := List.get?_eq_some.mp (by simpa [Console.entry?] using h2)
    simp only [Console.cursorSucc, hcur]
    omega
  · by_cases hz : c.history.length = 0
    · simp [hz] at h
    · by_cases hlt : n < c.history.length - 1
      · obtain ⟨rfl, -⟩ : { c with cursor := some (n + 1) } = c' ∧ True := by
          simp only [hz, if_false, hlt, if_true, Option.some.injEq, Prod.mk.injEq] at h
          exact ⟨h.1, trivial⟩
        simp only [Console.cursorSucc, hcur]
        omega
      · exfalso
        simp only [hz, if_false, hlt, if_true, Option.some.injEq, Prod.mk.injEq] at h
        rw [hm] at h
        exact Bool.false_ne_true h.2

/-- `Console::up_deduped`: record the starting entry, run the loop, then
return `starting_entry != self.entry()`. -/
def Console.up_deduped (c : Console) : Option (Console × Bool) :=
  match c.entry? with
  | none => none
  | some start =>
    match c.upDedupLoop start with
    | none => none
    | some c' =>
      match c'.entry? with
      | none => none
      | some e => some (c', start != e)

/-- The loop of `Console::down_deduped`:
`while self.down() && self.entry() == starting_entry {}`. -/
def Console.downDedupLoop (c : Console) (start : String) : Option Console :=
  match h : c.down with
  | (c', moved) =>
    if hm : moved then
      match c'.entry? with
      | none => none
      | some e => if e = start then Console.downDedupLoop c' start else some c'
    else some c'
termination_by c.cursorSucc
decreasing_by
  simp only [Console.down] at h
  rcases hcur : c.cursor with _ | n <;> rw [hcur] at h
  · simp only [Prod.mk.injEq] at h
    exact absurd h.2.symm (by simp [hm])
  · by_cases hz : 0 < n
    · simp only [hz, if_true, Prod.mk.injEq] at h
      obtain ⟨rfl, -⟩ := h
      simp only [Console.cursorSucc, hcur]
      omega
    · simp only [hz, if_false, Prod.mk.injEq] at h
      obtain ⟨rfl, -⟩ := h
      simp only [Console.cursorSucc, hcur]
      omega

/-- `Console::down_deduped`. -/
def Console.down_deduped (c : Console) : Option (Console × Bool) :=
  match c.entry? with
  | none => none
  | some start =>
    match c.downDedupLoop start with
    | none => none
    | some c' =>
      match c'.entry? with
      | none => none
      | some e => some (c', start != e)

/-- `Console::confirm`: parse the *displayed* text (`self.entry()`), then
push the raw `entry` *field* (the live buffer) to the front of the history,
emptying the buffer (`mem::replace`), and reset the cursor. Generic over the
parse function, whose result is returned unchanged. -/
def Console.confirm {R : Type} (c : Console) (parse : String → R) :
    Option (Console × R) :=
  match c.entry? with
  | none => none
  | some e =>
    let result := parse e
    some ({ c with entry := "", history := c.entry :: c.history, cursor := none }, result)

/-- `Console::show`. -/
def Console.show_ (c : Console) : Console := { c with shown := true }

/-- `Console::hide`. -/
def Console.hide (c : Console) : Console := { c with shown := false }

/-- `Console::toggle_shown`. -/
def Console.toggle_shown (c : Console) : Console := { c with shown := !c.shown }

/-- `k` successive calls to `up`, propagating a panic, ignoring the returned
booleans. -/
def Console.iterUp : Nat → Console → Option Console
  | 0, c => some c
  | k + 1, c =>
    match c.up with
    | none => none
    | some (c', _) => Console.iterUp k c'

/-- `k` successive calls to `down` (total). -/
def Console.iterDown : Nat → Console → Console
  | 0, c => c
  | k + 1, c => Console.iterDown k (c.down).1

/-- `k` successive calls to `up`, all of which moved (returned `true`). -/
def Console.iterUpT : Nat → Console → Option Console
  | 0, c => some c
  | k + 1, c =>
    match c.up with
    | some (c', true) => Console.iterUpT k c'
    | _ => none

/-- `k` successive calls to `down`, all of which moved (returned `true`). -/
def Console.iterDownT : Nat → Console → Option Console
  | 0, c => some c
  | k + 1, c =>
    match c.down with
    | (c', true) => Console.iterDownT k c'
    | (_, false) => none

/-- One step of the `Console` state machine: any single mutating method call
that completes without panicking. Filter and parse functions are arbitrary. -/
inductive Step : Console → Console → Prop where
  | set_entry (c : Console) (s : String) : Step c (c.set_entry s)
  | receive_char (c c' : Console) (ch : Char) (h : c.receive_char ch = some c') : Step c c'
  | receive_text (c c' : Console) (s : String) (h : c.receive_text s = some c') : Step c c'
  | receive_char_if (c c' : Console) (ch : Char) (f : Char → Bool) (b : Bool)
      (h : c.receive_char_if ch f = some (c', b)) : Step c c'
  | receive_text_if (c c' : Console) (s : String) (f : String → Bool) (b : Bool)
      (h : c.receive_text_if s f = some (c', b)) : Step c c'
  | backspace (c c' : Console) (h : c.backspace = some c') : Step c c'
  | clear (c : Console) : Step c c.clear
  | clear_history (c : Console) : Step c c.clear_history
  | up (c c' : Console) (b : Bool) (h : c.up = some (c', b)) : Step c c'
  | down (c : Console) : Step c (c.down).1
  | up_deduped (c c' : Console) (b : Bool) (h : c.up_deduped = some (c', b)) : Step c c'
  | down_deduped (c c' : Console) (b : Bool) (h : c.down_deduped = some (c', b)) : Step c c'
  | confirm (c c' : Console) (R : Type) (parse : String → R) (r : R)
      (h : c.confirm parse = some (c', r)) : Step c c'
  | show_ (c : Console) : Step c c.show_
  | hide (c : Console) : Step c c.hide
  | toggle_shown (c : Console) : Step c c.toggle_shown

/-- States reachable from `Console::new` by any sequence of method calls. -/
inductive Reachable : Console → Prop where
  | init : Reachable Console.new
  | step (c c' : Console) (hr : Reachable c) (hs : Step c c') : Reachable c'

/-! ### Basic lemmas about the operations -/

theorem Console.cursor_none_eta (c : Console) (h : c.cursor = none) :
    { c with cursor := none } = c := by
  cases c
  simp_all

theorem Console.up_false_eq (c c' : Console) (h : c.up = some (c', false)) : c' = c := by
  simp only [Console.up] at h
  rcases hcur : c.cursor with _ | n <;> rw [hcur] at h
  · simp at h
  · by_cases hz : c.history.length = 0
    · simp [hz] at h
    · by_cases hlt : n < c.history.length - 1 <;> simp [hz, hlt] at h
      exact h.symm

theorem Console.down_false_eq (c c' : Console) (h : c.down = (c', false)) :
    c' = c ∧ c.cursor = none := by
  simp only [Console.down] at h
  rcases hcur : c.cursor with _ | n <;> rw [hcur] at h
  · have h1 : { c with cursor := none } = c' := by simpa using h
    exact ⟨h1.symm.trans (c.cursor_none_eta hcur), by simp [hcur]⟩
  · by_cases hz : 0 < n <;> simp [hz] at h

theorem Console.up_frame (c c' : Console) (b : Bool) (h : c.up = some (c', b)) :
    c'.history = c.history ∧ c'.entry = c.entry ∧ c'.shown = c.shown := by
  simp only [Console.up] at h
  rcases hcur : c.cursor with _ | n <;> rw [hcur] at h
  · obtain ⟨rfl, -⟩ : { c with cursor := some 0 } = c' ∧ b = true := by simpa using h
    exact ⟨rfl, rfl, rfl⟩
  · by_cases hz : c.history.length = 0
    · simp [hz] at h
    · by_cases hlt : n < c.history.length - 1 <;> simp [hz, hlt] at h
      · obtain ⟨rfl, -⟩ := h
        exact ⟨rfl, rfl, rfl⟩
      · obtain ⟨rfl, -⟩ := h
        exact ⟨rfl, rfl, rfl⟩

theorem Console.down_frame (c : Console) :
    (c.down).1.history = c.history ∧ (c.down).1.entry = c.entry ∧
      (c.down).1.shown = c.shown := by
  simp only [Console.down]
  rcases hcur : c.cursor with _ | n
  · exact ⟨rfl, rfl, rfl⟩
  · by_cases hz : 0 < n <;> simp [hz]

theorem Console.fork_spec (c c' : Console) (h : c.fork = some c') :
    c'.cursor = none ∧ c'.history = c.history ∧ c'.shown = c.shown := by
  simp only [Console.fork] at h
  rcases hcur : c.cursor with _ | n <;> rw [hcur] at h
  · simp only [Option.isSome_none, Bool.false_eq_true, if_false, Option.some.injEq] at h
    subst h
    exact ⟨hcur, rfl, rfl⟩
  · simp only [Option.isSome_some, if_true, Console.entry?, hcur] at h
    rcases hget : c.history.get? n <;> rw [hget] at h
    · simp at h
    · obtain rfl : _ = c' := by simpa using h
      exact ⟨rfl, rfl, rfl⟩

theorem Console.receive_char_spec (c c' : Console) (ch : Char)
    (h : c.receive_char ch = some c') :
    c'.cursor = none ∧ c'.history = c.history ∧ c'.shown = c.shown := by
  simp only [Console.receive_char, Option.map_eq_some'] at h
  obtain ⟨d, hd, rfl⟩ := h
  obtain ⟨h1, h2, h3⟩ := c.fork_spec d hd
  exact ⟨h1, h2, h3⟩

theorem Console.receive_text_spec (c c' : Console) (s : String)
    (h : c.receive_text s = some c') :
    c'.cursor = none ∧ c'.history = c.history ∧ c'.shown = c.shown := by
  simp only [Console.receive_text, Option.map_eq_some'] at h
  obtain ⟨d, hd, rfl⟩ := h
  obtain ⟨h1, h2, h3⟩ := c.fork_spec d hd
  exact ⟨h1, h2, h3⟩

theorem Console.backspace_spec (c c' : Console) (h : c.backspace = some c') :
    c'.cursor = none ∧ c'.history = c.history ∧ c'.shown = c.shown := by
  simp only [Console.backspace, Option.map_eq_some'] at h
  obtain ⟨d, hd, rfl⟩ := h
  obtain ⟨h1, h2, h3⟩ := c.fork_spec d hd
  exact ⟨h1, h2, h3⟩

theorem Console.receive_char_if_cases (c c' : Console) (ch : Char) (f : Char → Bool)
    (b : Bool) (h : c.receive_char_if ch f = some (c', b)) :
    c' = c ∨ c.receive_char ch = some c' := by
  simp only [Console.receive_char_if] at h
  by_cases hf : f ch <;> simp [hf] at h
  · obtain ⟨d, hd, rfl, -⟩ := h
    exact Or.inr hd
  · exact Or.inl h.1.symm

theorem Console.receive_text_if_cases (c c' : Console) (s : String) (f : String → Bool)
    (b : Bool) (h : c.receive_text_if s f = some (c', b)) :
    c' = c ∨ c.receive_text s = some c' := by
  simp only [Console.receive_text_if] at h
  by_cases hf : f s <;> simp [hf] at h
  · obtain ⟨d, hd, rfl, -⟩ := h
    exact Or.inr hd
  · exact Or.inl h.1.symm

theorem Console.confirm_spec {R : Type} (c c' : Console) (parse : String → R) (r : R)
    (h : c.confirm parse = some (c', r)) :
    ∃ e, c.entry? = some e ∧
      c' = { c with entry := "", history := c.entry :: c.history, cursor := none } ∧
      r = parse e := by
  simp only [Console.confirm] at h
  rcases he : c.entry? with _ | e <;> rw [he] at h
  · simp at h
  · obtain ⟨rfl, rfl⟩ : _ = c' ∧ parse e = r := by simpa using h
    exact ⟨e, rfl, rfl, rfl⟩
theorem Console.upDedupLoop_eq (c : Console) (start : String) :
    c.upDedupLoop start =
      match c.up with
      | none => none
      | some (c', moved) =>
        if moved then
          match c'.entry? with
          | none => none
          | some e => if e = start then c'.upDedupLoop start else some c'
        else some c' := by
  rw [Console.upDedupLoop.eq_def]
  split
  · next heq => rw [heq]
  · next c1 moved heq =>
    simp only [heq]
    by_cases hm : moved = true
    · subst hm
      split
      · split <;> rename_i heq2 <;> rw [heq2]
      · next hf => exact absurd rfl hf
    · simp only [hm]
      simp

theorem Console.downDedupLoop_eq (c : Console) (start : String) :
    c.downDedupLoop start =
      match c.down with
      | (c', moved) =>
        if moved then
          match c'.entry? with
          | none => none
          | some e => if e = start then c'.downDedupLoop start else some c'
        else some c' := by
  rw [Console.downDedupLoop.eq_def]
  split
  next c1 moved heq =>
    simp only [heq]
    by_cases hm : moved = true
    · subst hm
      split
      · rfl
      · next hf => exact absurd rfl hf
    · simp only [hm]
      simp

theorem Console.up_deduped_run (c c' : Console) (r : Bool)
    (h : c.up_deduped = some (c', r)) :
    ∃ start e, c.entry? = some start ∧ c.upDedupLoop start = some c' ∧
      c'.entry? = some e ∧ r = (start != e) := by
  simp only [Console.up_deduped] at h
  split at h
  · cases h
  · next start hs =>
    split at h
    · cases h
    · next d hl =>
      split at h
      · cases h
      · next e he =>
        obtain ⟨rfl, rfl⟩ : d = c' ∧ (start != e) = r := by simpa using h
        exact ⟨start, e, hs, hl, he, rfl⟩

theorem Console.down_deduped_run (c c' : Console) (r : Bool)
    (h : c.down_deduped = some (c', r)) :
    ∃ start e, c.entry? = some start ∧ c.downDedupLoop start = some c' ∧
      c'.entry? = some e ∧ r = (start != e) := by
  simp only [Console.down_deduped] at h
  split at h
  · cases h
  · next start hs =>
    split at h
    · cases h
    · next d hl =>
      split at h
      · cases h
      · next e he =>
        obtain ⟨rfl, rfl⟩ : d = c' ∧ (start != e) = r := by simpa using h
        exact ⟨start, e, hs, hl, he, rfl⟩

/-! ### The cursor invariant on reachable states -/

/-- The invariant that holds of reachable states: a cursor index can only be
out of range when the history is empty (`clear_history` while browsing, and
`up` from the live state with an empty history, leave a dangling cursor). -/
def CursorInv (c : Console) : Prop :=
  ∀ n, c.cursor = some n → c.history.length = 0 ∨ n < c.history.length

theorem Console.inv_of_cursor_none (c : Console) (h : c.cursor = none) : CursorInv c := by
  intro n hn
  rw [h] at hn
  cases hn

theorem Console.up_inv (c c' : Console) (b : Bool) (h : c.up = some (c', b))
    (hc : CursorInv c) : CursorInv c' := by
  simp only [Console.up] at h
  rcases hcur : c.cursor with _ | n <;> rw [hcur] at h
  · obtain ⟨rfl, -⟩ : { c with cursor := some 0 } = c' ∧ b = true := by simpa using h
    intro m hm
    obtain rfl : (0 : Nat) = m := by simpa using hm
    simp only
    omega
  · by_cases hz : c.history.length = 0
    · simp [hz] at h
    · by_cases hlt : n < c.history.length - 1
      · obtain ⟨rfl, -⟩ : { c with cursor := some (n + 1) } = c' ∧ b = true := by
          simpa [hz, hlt] using h
        intro m hm
        obtain rfl : n + 1 = m := by simpa using hm
        simp only
        omega
      · obtain ⟨rfl, -⟩ : c = c' ∧ false = b := by simpa [hz, hlt] using h
        exact hc

theorem Console.down_inv (c : Console) (hc : CursorInv c) : CursorInv (c.down).1 := by
  simp only [Console.down]
  rcases hcur : c.cursor with _ | n
  · exact fun m hm => by simp at hm
  · by_cases hz : 0 < n <;> simp only [hz, if_true, if_false]
    · intro m hm
      obtain rfl : n - 1 = m := by simpa using hm
      rcases hc n hcur with h | h
      · left
        exact h
      · right
        simp only
        omega
    · exact fun m hm => by simp at hm

theorem Console.upDedupLoop_inv (c : Console) (start : String) :
    ∀ c'', c.upDedupLoop start = some c'' → CursorInv c → CursorInv c'' := by
  induction c, start using Console.upDedupLoop.induct with
  | case1 c start hup =>
    intro c'' h hc
    rw [Console.upDedupLoop_eq] at h
    simp [hup] at h
  | case2 c start c' hent hup =>
    intro c'' h hc
    rw [Console.upDedupLoop_eq] at h
    simp [hup, hent] at h
  | case3 c c' e hent hup ih =>
    intro c'' h hc
    rw [Console.upDedupLoop_eq] at h
    simp [hup, hent] at h
    exact ih c'' h (c.up_inv c' true hup hc)
  | case4 c start c' e hent hne hup =>
    intro c'' h hc
    rw [Console.upDedupLoop_eq] at h
    simp [hup, hent, hne] at h
    obtain rfl : c' = c'' := h
    exact c.up_inv c' true hup hc
  | case5 c start c' moved hup hm =>
    intro c'' h hc
    rw [Console.upDedupLoop_eq] at h
    simp [hup, hm] at h
    obtain rfl : c' = c'' := h
    exact c.up_inv c' moved hup hc

theorem Console.downDedupLoop_inv (c : Console) (start : String) :
    ∀ c'', c.downDedupLoop start = some c'' → CursorInv c → CursorInv c'' := by
  induction c, start using Console.downDedupLoop.induct with
  | case1 c start c' hent hdown =>
    intro c'' h hc
    rw [Console.downDedupLoop_eq] at h
    simp [hdown, hent] at h
  | case2 c c' e hent hdown ih =>
    intro c'' h hc
    rw [Console.downDedupLoop_eq] at h
    simp [hdown, hent] at h
    have hinv : CursorInv c' := by
      have := c.down_inv hc
      rwa [hdown] at this
    exact ih c'' h hinv
  | case3 c start c' e hent hne hdown =>
    intro c'' h hc
    rw [Console.downDedupLoop_eq] at h
    simp [hdown, hent, hne] at h
    obtain rfl : c' = c'' := h
    have := c.down_inv hc
    rwa [hdown] at this
  | case4 c start c' moved hdown hm =>
    intro c'' h hc
    rw [Console.downDedupLoop_eq] at h
    simp [hdown, hm] at h
    obtain rfl : c' = c'' := h
    have := c.down_inv hc
    rwa [hdown] at this

theorem Console.step_inv (c c' : Console) (hs : Step c c') (hc : CursorInv c) :
    CursorInv c' := by
  cases hs with
  | set_entry s => exact Console.inv_of_cursor_none _ rfl
  | receive_char c' ch h => exact Console.inv_of_cursor_none _ (c.receive_char_spec c' ch h).1
  | receive_text c' s h => exact Console.inv_of_cursor_none _ (c.receive_text_spec c' s h).1
  | receive_char_if c' ch f b h =>
    rcases c.receive_char_if_cases c' ch f b h with rfl | h2
    · exact hc
    · exact Console.inv_of_cursor_none _ (c.receive_char_spec c' ch h2).1
  | receive_text_if c' s f b h =>
    rcases c.receive_text_if_cases c' s f b h with rfl | h2
    · exact hc
    · exact Console.inv_of_cursor_none _ (c.receive_text_spec c' s h2).1
  | backspace c' h => exact Console.inv_of_cursor_none _ (c.backspace_spec c' h).1
  | clear =>
    intro n hn
    exact hc n hn
  | clear_history =>
    intro n hn
    left
    rfl
  | up c' b h => exact c.up_inv c' b h hc
  | down => exact c.down_inv hc
  | up_deduped c' b h =>
    obtain ⟨start, e, -, hl, -, -⟩ := c.up_deduped_run c' b h
    exact c.upDedupLoop_inv start c' hl hc
  | down_deduped c' b h =>
    obtain ⟨start, e, -, hl, -, -⟩ := c.down_deduped_run c' b h
    exact c.downDedupLoop_inv start c' hl hc
  | confirm c' R parse r h =>
    obtain ⟨e, -, rfl, -⟩ := Console.confirm_spec c c' parse r h
    exact Console.inv_of_cursor_none _ rfl
  | show_ =>
    intro n hn
    exact hc n hn
  | hide =>
    intro n hn
    exact hc n hn
  | toggle_shown =>
    intro n hn
    exact hc n hn

/-- Every reachable state satisfies the cursor invariant: a dangling cursor
index implies the history is empty. -/
theorem Console.reachable_inv (c : Console) (h : Reachable c) : CursorInv c := by
  induction h with
  | init => exact Console.inv_of_cursor_none _ rfl
  | step c c' hr hs ih => exact Console.step_inv c c' hs ih

/-! ### Navigation clamping -/

theorem Console.up_settled (c : Console) (hne : c.history.length ≠ 0)
    (hcur : c.cursor = some (c.history.length - 1)) : c.up = some (c, false) := by
  simp only [Console.up, hcur]
  rw [if_neg hne, if_neg (by omega)]

theorem Console.down_settled (c : Console) (hcur : c.cursor = none) :
    c.down = (c, false) := by
  simp only [Console.down, hcur]
  rw [c.cursor_none_eta hcur]

theorem Console.up_step_cases (c : Console) (hne : c.history.length ≠ 0)
    (hc : CursorInv c) :
    ∃ c1 b, c.up = some (c1, b) ∧ c1.history = c.history ∧ c1.entry = c.entry ∧
      c1.shown = c.shown ∧ CursorInv c1 ∧
      (c1.cursorSucc = c.cursorSucc + 1 ∨
        (c1 = c ∧ c.cursor = some (c.history.length - 1))) := by
  rcases hcur : c.cursor with _ | n
  · refine ⟨{ c with cursor := some 0 }, true, ?_, rfl, rfl, rfl, ?_, ?_⟩
    · simp [Console.up, hcur]
    · intro m hm
      obtain rfl : (0 : Nat) = m := by simpa using hm
      omega
    · left
      simp [Console.cursorSucc, hcur]
  · by_cases hlt : n < c.history.length - 1
    · refine ⟨{ c with cursor := some (n + 1) }, true, ?_, rfl, rfl, rfl, ?_, ?_⟩
      · simp only [Console.up, hcur]
        rw [if_neg hne, if_pos hlt]
      · intro m hm
        obtain rfl : n + 1 = m := by simpa using hm
        right
        simp only
        omega
      · left
        simp [Console.cursorSucc, hcur]
    · have hn : n = c.history.length - 1 := by
        rcases hc n hcur with h | h <;> omega
      subst hn
      refine ⟨c, false, c.up_settled hne hcur, rfl, rfl, rfl, hc, Or.inr ⟨rfl, rfl⟩⟩

theorem Console.iterUp_settles (k : Nat) :
    ∀ c : Console, c.history.length ≠ 0 → CursorInv c →
    ∃ ck : Console, Console.iterUp k c = some ck ∧ ck.history = c.history ∧
      ck.entry = c.entry ∧ ck.shown = c.shown ∧ CursorInv ck ∧
      (c.history.length ≤ c.cursorSucc + k → ck.cursor = some (c.history.length - 1)) := by
  induction k with
  | zero =>
    intro c hne hc
    refine ⟨c, rfl, rfl, rfl, rfl, hc, ?_⟩
    intro hk
    rcases hcur : c.cursor with _ | n
    · exfalso
      have hsn : c.cursorSucc = 0 := by simp [Console.cursorSucc, hcur]
      omega
    · have hsn : c.cursorSucc = n + 1 := by simp [Console.cursorSucc, hcur]
      have hn : n = c.history.length - 1 := by
        rcases hc n hcur with h | h <;> omega
      rw [hn]
  | succ k ih =>
    intro c hne hc
    obtain ⟨c1, b, hup, hh, hent, hsh, hinv, hcase⟩ := c.up_step_cases hne hc
    obtain ⟨ck, hk, hh1, hent1, hsh1, hinv1, hsettle⟩ := ih c1 (by rw [hh]; exact hne) hinv
    refine ⟨ck, ?_, by rw [hh1, hh], by rw [hent1, hent], by rw [hsh1, hsh], hinv1, ?_⟩
    · simp only [Console.iterUp, hup]
      exact hk
    · intro hle
      rcases hcase with hsucc | ⟨rfl, hcur⟩
      · have : c1.history.length ≤ c1.cursorSucc + k := by
          rw [hh, hsucc]
          omega
        rw [hsettle this, hh]
      · have hsn : c1.cursorSucc = c1.history.length := by
          simp [Console.cursorSucc, hcur]
          omega
        have : c1.history.length ≤ c1.cursorSucc + k := by omega
        rw [hsettle this, hh]

theorem Console.down_cursorSucc (c : Console) :
    (c.down).1.cursorSucc = c.cursorSucc - 1 := by
  rcases hcur : c.cursor with _ | n
  · simp [Console.down, hcur, Console.cursorSucc]
  · by_cases hz : 0 < n
    · simp only [Console.down, hcur, hz, if_true]
      simp [Console.cursorSucc, hcur]
      omega
    · simp only [Console.down, hcur, hz, if_false]
      simp [Console.cursorSucc, hcur]
      omega

theorem Console.iterDown_settles (k : Nat) :
    ∀ c : Console, c.cursorSucc ≤ k →
      (Console.iterDown k c).cursor = none ∧
      (Console.iterDown k c).history = c.history ∧
      (Console.iterDown k c).entry = c.entry ∧
      (Console.iterDown k c).shown = c.shown := by
  induction k with
  | zero =>
    intro c hk
    rcases hcur : c.cursor with _ | n
    · exact ⟨hcur, rfl, rfl, rfl⟩
    · exfalso
      simp [Console.cursorSucc, hcur] at hk
  | succ k ih =>
    intro c hk
    have hstep : (c.down).1.cursorSucc ≤ k := by
      rw [c.down_cursorSucc]
      omega
    obtain ⟨h1, h2, h3, h4⟩ := ih (c.down).1 hstep
    obtain ⟨hh, he, hs⟩ := c.down_frame
    exact ⟨h1, by rw [Console.iterDown]; rw [h2, hh], by rw [Console.iterDown]; rw [h3, he],
      by rw [Console.iterDown]; rw [h4, hs]⟩

/-! ### Characterisation of the dedup loops -/

theorem Console.iterUpT_succ_of (c c1 : Console) (k : Nat)
    (h : c.up = some (c1, true)) :
    Console.iterUpT (k + 1) c = Console.iterUpT k c1 := by
  simp [Console.iterUpT, h]

theorem Console.iterDownT_succ_of (c c1 : Console) (k : Nat)
    (h : c.down = (c1, true)) :
    Console.iterDownT (k + 1) c = Console.iterDownT k c1 := by
  simp [Console.iterDownT, h]

theorem Console.upDedupLoop_run (c : Console) (start : String) :
    ∀ c'', c.upDedupLoop start = some c'' →
      ∃ k, Console.iterUpT k c = some c'' ∧
        (∀ j cj, 1 ≤ j → j < k → Console.iterUpT j c = some cj →
          cj.entry? = some start) ∧
        (c''.entry? ≠ some start ∨ c''.up = some (c'', false)) := by
  induction c, start using Console.upDedupLoop.induct with
  | case1 c start hup =>
    intro c'' h
    rw [Console.upDedupLoop_eq] at h
    simp [hup] at h
  | case2 c start c' hent hup =>
    intro c'' h
    rw [Console.upDedupLoop_eq] at h
    simp [hup, hent] at h
  | case3 c c' e hent hup ih =>
    intro c'' h
    rw [Console.upDedupLoop_eq] at h
    simp [hup, hent] at h
    obtain ⟨k, hk, hmid, hstop⟩ := ih c'' h
    refine ⟨k + 1, ?_, ?_, hstop⟩
    · rw [Console.iterUpT_succ_of c c' k hup]
      exact hk
    · intro j cj h1 hj hiter
      rcases j with _ | j
      · omega
      · rw [Console.iterUpT_succ_of c c' j hup] at hiter
        rcases Nat.eq_zero_or_pos j with rfl | hpos
        · obtain rfl : c' = cj := by simpa [Console.iterUpT] using hiter
          exact hent
        · exact hmid j cj hpos (by omega) hiter
  | case4 c start c' e hent hne hup =>
    intro c'' h
    rw [Console.upDedupLoop_eq] at h
    simp [hup, hent, hne] at h
    obtain rfl : c' = c'' := h
    refine ⟨1, ?_, ?_, Or.inl ?_⟩
    · rw [Console.iterUpT_succ_of c c' 0 hup]
      rfl
    · intro j cj h1 hj hiter
      omega
    · rw [hent]
      simp [hne]
  | case5 c start c' moved hup hm =>
    intro c'' h
    rw [Console.upDedupLoop_eq] at h
    simp [hup, hm] at h
    obtain rfl : c' = c'' := h
    have hmv : moved = false := by
      cases moved
      · rfl
      · exact absurd rfl hm
    subst hmv
    obtain rfl : c' = c := Console.up_false_eq c c' hup
    refine ⟨0, rfl, ?_, Or.inr hup⟩
    intro j cj h1 hj hiter
    omega

theorem Console.downDedupLoop_run (c : Console) (start : String) :
    ∀ c'', c.downDedupLoop start = some c'' →
      ∃ k, Console.iterDownT k c = some c'' ∧
        (∀ j cj, 1 ≤ j → j < k → Console.iterDownT j c = some cj →
          cj.entry? = some start) ∧
        (c''.entry? ≠ some start ∨ c''.down = (c'', false)) := by
  induction c, start using Console.downDedupLoop.induct with
  | case1 c start c' hent hdown =>
    intro c'' h
    rw [Console.downDedupLoop_eq] at h
    simp [hdown, hent] at h
  | case2 c c' e hent hdown ih =>
    intro c'' h
    rw [Console.downDedupLoop_eq] at h
    simp [hdown, hent] at h
    obtain ⟨k, hk, hmid, hstop⟩ := ih c'' h
    refine ⟨k + 1, ?_, ?_, hstop⟩
    · rw [Console.iterDownT_succ_of c c' k hdown]
      exact hk
    · intro j cj h1 hj hiter
      rcases j with _ | j
      · omega
      · rw [Console.iterDownT_succ_of c c' j hdown] at hiter
        rcases Nat.eq_zero_or_pos j with rfl | hpos
        · obtain rfl : c' = cj := by simpa [Console.iterDownT] using hiter
          exact hent
        · exact hmid j cj hpos (by omega) hiter
  | case3 c start c' e hent hne hdown =>
    intro c'' h
    rw [Console.downDedupLoop_eq] at h
    simp [hdown, hent, hne] at h
    obtain rfl : c' = c'' := h
    refine ⟨1, ?_, ?_, Or.inl ?_⟩
    · rw [Console.iterDownT_succ_of c c' 0 hdown]
      rfl
    · intro j cj h1 hj hiter
      omega
    · rw [hent]
      simp [hne]
  | case4 c start c' moved hdown hm =>
    intro c'' h
    rw [Console.downDedupLoop_eq] at h
    simp [hdown, hm] at h
    obtain rfl : c' = c'' := h
    have hmv : moved = false := by
      cases moved
      · rfl
      · exact absurd rfl hm
    subst hmv
    obtain ⟨rfl, -⟩ := Console.down_false_eq c c' hdown
    refine ⟨0, rfl, ?_, Or.inr hdown⟩
    intro j cj h1 hj hiter
    omega

/-! ### Some concrete reachable states -/

/-- `Console::new(); set_entry("a")`. -/
theorem Console.reachable_set_a : Reachable ⟨false, "a", [], none⟩ :=
  Reachable.step Console.new _ Reachable.init (Step.set_entry Console.new "a")

/-- `Console::new(); set_entry("a"); confirm::<String>()`. -/
theorem Console.reachable_one_confirmed : Reachable ⟨false, "", ["a"], none⟩ :=
  Reachable.step _ _ Console.reachable_set_a
    (Step.confirm ⟨false, "a", [], none⟩ _ String (fun s => s) "a" rfl)

/-- `Console::new(); set_entry("a"); confirm::<String>(); up()`. -/
theorem Console.reachable_browsing_one : Reachable ⟨false, "", ["a"], some 0⟩ :=
  Reachable.step _ _ Console.reachable_one_confirmed
    (Step.up ⟨false, "", ["a"], none⟩ _ true rfl)

/-- `Console::new(); up()`: the dangling-cursor state with empty history. -/
theorem Console.reachable_dangling : Reachable ⟨false, "", [], some 0⟩ :=
  Reachable.step Console.new _ Reachable.init (Step.up Console.new _ true rfl)

/-! ### The claims -/

/-- C1: the claim states that `up()` on a `Live` console (Cursor = None) with
empty HistoryList stays `Live` and returns `false`. The code does the
opposite: the `None` arm of the `match` in `Console::up` never inspects the
history, so on the fresh console `up()` moves the cursor to `Some(0)` and
returns `true` — contradicting the method's own documentation ("If there is
no older entry, the cursor does not move"). Evaluated at the initial state. -/
theorem C1_up_on_empty_history_moves :
    Console.new.history = [] ∧ Console.new.cursor = none ∧
    Console.new.up = some (⟨false, "", [], some 0⟩, true) :=
  ⟨rfl, rfl, rfl⟩

/-- C3: the claim states every operation except the parse step is total on
every reachable state. It is not: the state with cursor `Some(0)` and empty
history is reachable (`Console::new(); up()`), and there `entry()` panics
(out-of-range indexing into the empty history), `up()` panics (`usize`
underflow in `self.history.len() - 1`), `backspace()` panics (it reads
`entry()` to fork), and `up_deduped`/`down_deduped` panic (they read
`entry()` first). -/
theorem C3_operations_panic_from_reachable_state :
    Reachable ⟨false, "", [], some 0⟩ ∧
    Console.entry? ⟨false, "", [], some 0⟩ = none ∧
    Console.up ⟨false, "", [], some 0⟩ = none ∧
    Console.backspace ⟨false, "", [], some 0⟩ = none ∧
    Console.up_deduped ⟨false, "", [], some 0⟩ = none ∧
    Console.down_deduped ⟨false, "", [], some 0⟩ = none :=
  ⟨Console.reachable_dangling, rfl, rfl, rfl, rfl, rfl⟩

/-- C2 counterexample: the claim's invariant `Cursor = Some(n) → n <
length(HistoryList)` fails on a reachable state, and `clear_history` does not
reset the cursor: after `set_entry("a"); confirm(); up()` the console is
browsing at `Some(0)`, and `clear_history()` empties the history while
leaving the cursor at `Some(0)`. -/
theorem C2_cex_dangling_cursor_reachable :
    Console.clear_history ⟨false, "", ["a"], some 0⟩ = ⟨false, "", [], some 0⟩ ∧
    Reachable ⟨false, "", [], some 0⟩ ∧
    (⟨false, "", [], some 0⟩ : Console).cursor = some 0 ∧
    (⟨false, "", [], some 0⟩ : Console).history.length = 0 :=
  ⟨rfl,
   Reachable.step _ _ Console.reachable_browsing_one
     (Step.clear_history ⟨false, "", ["a"], some 0⟩),
   rfl, rfl⟩

/-- C2 (amended): in every reachable state whose HistoryList is nonempty, if
Cursor = Some(n) then n < length(HistoryList); `confirm` always resets the
cursor to None; and every edit operation performed while browsing
(`receive_char`, `receive_text`, `backspace`, accepted filtered variants)
resets the cursor to None. (Unlike the original claim: `clear_history` does
not reset the cursor, and `up()` on an empty history sets it to `Some(0)`, so
reachable states with a dangling cursor and an empty history exist.) -/
theorem C2_cursor_invariant_amended :
    (∀ c : Console, Reachable c → c.history ≠ [] →
      ∀ n, c.cursor = some n → n < c.history.length) ∧
    (∀ (R : Type) (c c' : Console) (parse : String → R) (r : R),
      c.confirm parse = some (c', r) → c'.cursor = none) ∧
    (∀ (c c' : Console) (n : Nat) (ch : Char), c.cursor = some n →
      c.receive_char ch = some c' → c'.cursor = none) ∧
    (∀ (c c' : Console) (n : Nat) (s : String), c.cursor = some n →
      c.receive_text s = some c' → c'.cursor = none) ∧
    (∀ (c c' : Console) (n : Nat), c.cursor = some n →
      c.backspace = some c' → c'.cursor = none) ∧
    (∀ (c c' : Console) (n : Nat) (ch : Char) (f : Char → Bool), c.cursor = some n →
      c.receive_char_if ch f = some (c', true) → c'.cursor = none) ∧
    (∀ (c c' : Console) (n : Nat) (s : String) (f : String → Bool), c.cursor = some n →
      c.receive_text_if s f = some (c', true) → c'.cursor = none) := by
  refine ⟨?_, ?_, ?_, ?_, ?_, ?_, ?_⟩
  · intro c hr hne n hcur
    rcases Console.reachable_inv c hr n hcur with h | h
    · exact absurd (List.length_eq_zero.mp h) hne
    · exact h
  · intro R c c' parse r h
    obtain ⟨e, -, rfl, -⟩ := Console.confirm_spec c c' parse r h
    rfl
  · intro c c' n ch hcur h
    exact (c.receive_char_spec c' ch h).1
  · intro c c' n s hcur h
    exact (c.receive_text_spec c' s h).1
  · intro c c' n hcur h
    exact (c.backspace_spec c' h).1
  · intro c c' n ch f hcur h
    simp only [Console.receive_char_if] at h
    by_cases hf : f ch
    · rw [if_pos hf] at h
      obtain ⟨d, hd, hdc⟩ := Option.map_eq_some'.mp h
      obtain ⟨rfl, -⟩ : d = c' ∧ True := by
        constructor
        · exact congrArg Prod.fst hdc
        · trivial
      exact (c.receive_char_spec d ch hd).1
    · rw [if_neg hf] at h
      simp at h
  · intro c c' n s f hcur h
    simp only [Console.receive_text_if] at h
    by_cases hf : f s
    · rw [if_pos hf] at h
      obtain ⟨d, hd, hdc⟩ := Option.map_eq_some'.mp h
      obtain ⟨rfl, -⟩ : d = c' ∧ True := by
        constructor
        · exact congrArg Prod.fst hdc
        · trivial
      exact (c.receive_text_spec d s hd).1
    · rw [if_neg hf] at h
      simp at h

/-- C2 witness: the amended theorem applied at concrete states: the reachable
browsing state `⟨false, "", ["a"], Some 0⟩` has its cursor in range, and
`confirm` / the edit operations reset the cursor at concrete inputs. -/
theorem C2_cursor_invariant_amended_witness :
    (0 < (⟨false, "", ["a"], some 0⟩ : Console).history.length) ∧
    ((⟨false, "", ["a"], none⟩ : Console).cursor = none) ∧
    ((⟨false, "ab", ["a"], none⟩ : Console).cursor = none) ∧
    ((⟨false, "abc", ["a"], none⟩ : Console).cursor = none) ∧
    ((⟨false, "", ["a"], none⟩ : Console).cursor = none) ∧
    ((⟨false, "ab", ["a"], none⟩ : Console).cursor = none) ∧
    ((⟨false, "abc", ["a"], none⟩ : Console).cursor = none) :=
  ⟨C2_cursor_invariant_amended.1 ⟨false, "", ["a"], some 0⟩
      Console.reachable_browsing_one (by decide) 0 rfl,
   C2_cursor_invariant_amended.2.1 String ⟨false, "a", [], none⟩ _ (fun s => s) "a" rfl,
   C2_cursor_invariant_amended.2.2.1 ⟨false, "x", ["a"], some 0⟩ _ 0 'b' rfl rfl,
   C2_cursor_invariant_amended.2.2.2.1 ⟨false, "x", ["a"], some 0⟩ _ 0 "bc" rfl rfl,
   C2_cursor_invariant_amended.2.2.2.2.1 ⟨false, "x", ["a"], some 0⟩ _ 0 rfl rfl,
   C2_cursor_invariant_amended.2.2.2.2.2.1 ⟨false, "x", ["a"], some 0⟩ _ 0 'b'
      (fun _ => true) rfl rfl,
   C2_cursor_invariant_amended.2.2.2.2.2.2 ⟨false, "x", ["a"], some 0⟩ _ 0 "bc"
      (fun _ => true) rfl rfl⟩

/-- C4: `confirm` parses the text returned by `entry()` (the displayed text)
but pushes the raw live buffer field to the front of the HistoryList; in
particular, confirming while the cursor is at a valid index `n` with no
intervening edit parses `HistoryList[n]` while the pushed value is the stale
buffer field. -/
theorem C4_confirm_parses_displayed_pushes_buffer :
    ∀ (R : Type) (c : Console) (parse : String → R) (e : String),
      c.entry? = some e →
      c.confirm parse =
        some ({ shown := c.shown, entry := "", history := c.entry :: c.history,
                cursor := none }, parse e) ∧
      ∀ n (hn : c.cursor = some n) (hlt : n < c.history.length),
        e = c.history.get ⟨n, hlt⟩ := by
  intro R c parse e he
  constructor
  · simp [Console.confirm, he]
  · intro n hn hlt
    simp only [Console.entry?, hn] at he
    obtain ⟨h1, h2⟩ := List.get?_eq_some.mp he
    exact h2.symm

/-- C4 witness: confirming `⟨false, "stale", ["displayed"], Some 0⟩` with the
identity parse returns the browsed entry `"displayed"` but pushes the stale
buffer `"stale"` in front of the history. -/
theorem C4_confirm_parses_displayed_pushes_buffer_witness :
    Console.confirm (R := String) ⟨false, "stale", ["displayed"], some 0⟩ (fun s => s) =
      some (⟨false, "", ["stale", "displayed"], none⟩, "displayed") ∧
    ("displayed" : String) = (["displayed"] : List String).get ⟨0, by decide⟩ := by
  have h := C4_confirm_parses_displayed_pushes_buffer String
    ⟨false, "stale", ["displayed"], some 0⟩ (fun s => s) "displayed" rfl
  exact ⟨h.1, h.2 0 rfl (by decide)⟩

/-- C5 counterexample: the claim quantifies over every state; at the
reachable state with cursor `Some(0)` and empty history (`Console::new();
up()`), `confirm` panics instead of appending an entry and returning the
parse result. -/
theorem C5_cex_confirm_panics_at_reachable_state :
    Reachable ⟨false, "", [], some 0⟩ ∧
    Console.confirm (R := String) ⟨false, "", [], some 0⟩ (fun s => s) = none :=
  ⟨Console.reachable_dangling, rfl⟩

/-- C5 (amended): for every state in which the displayed text is defined
(`Live`, or `Browsing(n)` with `n` in range — equivalently `entry()` does not
panic) and every parse function, `confirm` appends exactly one entry
(`history_len` grows by exactly 1, the new entry at the front and the old
history unchanged behind it), resets the cursor to `None`, and returns the
parse result, whether the parse succeeds or fails. -/
theorem C5_confirm_appends_amended :
    ∀ (R : Type) (c : Console) (parse : String → R) (e : String),
      c.entry? = some e →
      ∃ c' : Console, c.confirm parse = some (c', parse e) ∧
        c'.history_len = c.history_len + 1 ∧
        c'.history.head? = some c.entry ∧
        c'.history.tail = c.history ∧
        c'.cursor = none := by
  intro R c parse e he
  refine ⟨{ shown := c.shown, entry := "", history := c.entry :: c.history,
            cursor := none }, ?_, rfl, rfl, rfl, rfl⟩
  simp [Console.confirm, he]

/-- C5 witness: at `⟨false, "buf", ["a"], none⟩` with the identity parse,
`confirm` appends `"buf"` at the front, grows the history length from 1 to 2,
and resets the cursor. -/
theorem C5_confirm_appends_amended_witness :
    ∃ c' : Console,
      Console.confirm (R := String) ⟨false, "buf", ["a"], none⟩ (fun s => s) =
        some (c', "buf") ∧
      c'.history_len = (⟨false, "buf", ["a"], none⟩ : Console).history_len + 1 ∧
      c'.history.head? = some "buf" ∧
      c'.history.tail = ["a"] ∧
      c'.cursor = none :=
  C5_confirm_appends_amended String ⟨false, "buf", ["a"], none⟩ (fun s => s) "buf" rfl

/-- C6: for every state browsing at a valid history index `n`, each edit
operation first copies `HistoryList[n]` into the buffer and goes `Live`
(cursor `None`), then applies the edit to the buffer; the history itself is
unchanged. Covers `receive_char`, `receive_text`, `backspace`, and the
accepted filtered variants. -/
theorem C6_edit_while_browsing_forks :
    ∀ (c : Console) (n : Nat) (hn : c.cursor = some n) (hlt : n < c.history.length)
      (ch : Char) (s : String),
      c.receive_char ch =
        some { shown := c.shown, entry := (c.history.get ⟨n, hlt⟩).push ch,
               history := c.history, cursor := none } ∧
      c.receive_text s =
        some { shown := c.shown, entry := c.history.get ⟨n, hlt⟩ ++ s,
               history := c.history, cursor := none } ∧
      c.backspace =
        some { shown := c.shown, entry := (c.history.get ⟨n, hlt⟩).dropRight 1,
               history := c.history, cursor := none } ∧
      (∀ f : Char → Bool, f ch = true →
        c.receive_char_if ch f =
          some ({ shown := c.shown, entry := (c.history.get ⟨n, hlt⟩).push ch,
                  history := c.history, cursor := none }, true)) ∧
      (∀ g : String → Bool, g s = true →
        c.receive_text_if s g =
          some ({ shown := c.shown, entry := c.history.get ⟨n, hlt⟩ ++ s,
                  history := c.history, cursor := none }, true)) := by
  intro c n hn hlt ch s
  have hget : c.history.get? n = some (c.history.get ⟨n, hlt⟩) := List.get?_eq_get hlt
  have hfork : c.fork =
      some { c with entry := c.history.get ⟨n, hlt⟩, cursor := none } := by
    simp only [Console.fork, hn, Option.isSome_some, if_true, Console.entry?, hget]
  have hrc : c.receive_char ch =
      some { shown := c.shown, entry := (c.history.get ⟨n, hlt⟩).push ch,
             history := c.history, cursor := none } := by
    simp [Console.receive_char, hfork]
  have hrt : c.receive_text s =
      some { shown := c.shown, entry := c.history.get ⟨n, hlt⟩ ++ s,
             history := c.history, cursor := none } := by
    simp [Console.receive_text, hfork]
  refine ⟨hrc, hrt, ?_, ?_, ?_⟩
  · simp [Console.backspace, hfork]
  · intro f hf
    simp [Console.receive_char_if, hf, hrc]
  · intro g hg
    simp [Console.receive_text_if, hg, hrt]

/-- C6 witness: browsing the single entry `"abc"` with a stale buffer, each
edit operation forks `"abc"` into the buffer, goes Live, and applies the edit
(the history is untouched). -/
theorem C6_edit_while_browsing_forks_witness :
    Console.receive_char ⟨false, "stale", ["abc"], some 0⟩ 'x' =
      some ⟨false, "abcx", ["abc"], none⟩ ∧
    Console.receive_text ⟨false, "stale", ["abc"], some 0⟩ "yz" =
      some ⟨false, "abcyz", ["abc"], none⟩ ∧
    Console.backspace ⟨false, "stale", ["abc"], some 0⟩ =
      some ⟨false, "ab", ["abc"], none⟩ ∧
    Console.receive_char_if ⟨false, "stale", ["abc"], some 0⟩ 'x' (fun _ => true) =
      some (⟨false, "abcx", ["abc"], none⟩, true) ∧
    Console.receive_text_if ⟨false, "stale", ["abc"], some 0⟩ "yz" (fun _ => true) =
      some (⟨false, "abcyz", ["abc"], none⟩, true) := by
  have h := C6_edit_while_browsing_forks ⟨false, "stale", ["abc"], some 0⟩ 0 rfl
    (by decide) 'x' "yz"
  exact ⟨h.1, h.2.1, h.2.2.1, h.2.2.2.1 (fun _ => true) rfl, h.2.2.2.2 (fun _ => true) rfl⟩

/-- C7 counterexample: the claim quantifies over every state and asserts
`up_deduped` returns a boolean; on the fresh console (empty history, live
mode) `up_deduped` panics instead of returning: the initial `up()` moves to
`Some(0)` (the C1 defect) and the subsequent `entry()` read indexes the empty
history. -/
theorem C7_cex_up_deduped_panics_on_new :
    Console.up_deduped Console.new = none := by
  simp [Console.up_deduped, Console.upDedupLoop, Console.up, Console.entry?, Console.new]

/-- C7 (amended): whenever a call to `up_deduped` (resp. `down_deduped`)
completes without panicking, it behaves as the claim describes: the final
state is reached by some number `k` of successful `up` (resp. `down`) moves;
every intermediate displayed text (after moves 1 .. k-1) equals the text
displayed at call start; the loop stopped because the final text differs or
because movement stopped being possible (the next move returns `false`
without changing the state); and the returned boolean is `true` exactly when
the final displayed text differs from the text displayed at call start. -/
theorem C7_dedup_navigation_amended :
    (∀ (c c' : Console) (r : Bool) (start : String),
      c.up_deduped = some (c', r) → c.entry? = some start →
      ∃ k, Console.iterUpT k c = some c' ∧
        (∀ j cj, 1 ≤ j → j < k → Console.iterUpT j c = some cj →
          cj.entry? = some start) ∧
        (c'.entry? ≠ some start ∨ c'.up = some (c', false)) ∧
        (r = true ↔ c'.entry? ≠ some start)) ∧
    (∀ (c c' : Console) (r : Bool) (start : String),
      c.down_deduped = some (c', r) → c.entry? = some start →
      ∃ k, Console.iterDownT k c = some c' ∧
        (∀ j cj, 1 ≤ j → j < k → Console.iterDownT j c = some cj →
          cj.entry? = some start) ∧
        (c'.entry? ≠ some start ∨ c'.down = (c', false)) ∧
        (r = true ↔ c'.entry? ≠ some start)) := by
  constructor
  · intro c c' r start h hstart
    obtain ⟨start2, e, hs2, hl, he, hr⟩ := c.up_deduped_run c' r h
    obtain rfl : start = start2 := by
      rw [hstart] at hs2
      exact (Option.some.injEq _ _).mp hs2
    obtain ⟨k, hk, hmid, hstop⟩ := c.upDedupLoop_run start c' hl
    refine ⟨k, hk, hmid, hstop, ?_⟩
    subst hr
    rw [he]
    constructor
    · intro hb
      have : start ≠ e := bne_iff_ne.mp hb
      simp only [Ne, Option.some.injEq]
      intro h2
      exact this h2.symm
    · intro hb
      refine bne_iff_ne.mpr ?_
      intro h2
      subst h2
      exact hb rfl
  · intro c c' r start h hstart
    obtain ⟨start2, e, hs2, hl, he, hr⟩ := c.down_deduped_run c' r h
    obtain rfl : start = start2 := by
      rw [hstart] at hs2
      exact (Option.some.injEq _ _).mp hs2
    obtain ⟨k, hk, hmid, hstop⟩ := c.downDedupLoop_run start c' hl
    refine ⟨k, hk, hmid, hstop, ?_⟩
    subst hr
    rw [he]
    constructor
    · intro hb
      have : start ≠ e := bne_iff_ne.mp hb
      simp only [Ne, Option.some.injEq]
      intro h2
      exact this h2.symm
    · intro hb
      refine bne_iff_ne.mpr ?_
      intro h2
      subst h2
      exact hb rfl

/-- C7 witness: with history `["a"]`, `up_deduped` from the live state (text
`""`) moves to `Browsing(0)` (text `"a"`) and returns `true`; `down_deduped`
from `Browsing(0)` returns to the live state and returns `true`. The amended
theorem applied at those concrete runs. -/
theorem C7_dedup_navigation_amended_witness :
    (∃ k, Console.iterUpT k ⟨false, "", ["a"], none⟩ =
        some ⟨false, "", ["a"], some 0⟩ ∧
      (∀ j cj, 1 ≤ j → j < k →
        Console.iterUpT j ⟨false, "", ["a"], none⟩ = some cj →
        cj.entry? = some "") ∧
      (Console.entry? ⟨false, "", ["a"], some 0⟩ ≠ some "" ∨
        Console.up ⟨false, "", ["a"], some 0⟩ =
          some (⟨false, "", ["a"], some 0⟩, false)) ∧
      (true = true ↔ Console.entry? ⟨false, "", ["a"], some 0⟩ ≠ some "")) ∧
    (∃ k, Console.iterDownT k ⟨false, "", ["a"], some 0⟩ =
        some ⟨false, "", ["a"], none⟩ ∧
      (∀ j cj, 1 ≤ j → j < k →
        Console.iterDownT j ⟨false, "", ["a"], some 0⟩ = some cj →
        cj.entry? = some "a") ∧
      (Console.entry? ⟨false, "", ["a"], none⟩ ≠ some "a" ∨
        Console.down ⟨false, "", ["a"], none⟩ =
          (⟨false, "", ["a"], none⟩, false)) ∧
      (true = true ↔ Console.entry? ⟨false, "", ["a"], none⟩ ≠ some "a")) := by
  constructor
  · exact C7_dedup_navigation_amended.1 ⟨false, "", ["a"], none⟩
      ⟨false, "", ["a"], some 0⟩ true ""
      (by simp [Console.up_deduped, Console.upDedupLoop, Console.up, Console.entry?]) rfl
  · exact C7_dedup_navigation_amended.2 ⟨false, "", ["a"], some 0⟩
      ⟨false, "", ["a"], none⟩ true "a"
      (by simp [Console.down_deduped, Console.downDedupLoop, Console.down, Console.entry?])
      rfl

/-- C8: navigation clamps at both ends and never wraps. For every reachable
state with nonempty HistoryList: after any `k ≥ length` calls to `up()` the
cursor settles at the oldest entry (index `length - 1`) and a further `up()`
returns `false` without moving; after any `k` calls to `down()` at least the
distance back to `Live` (cursor index + 1) the cursor is at `Live` and a
further `down()` returns `false` without moving. The history is unchanged
throughout. -/
theorem C8_navigation_clamps :
    ∀ c : Console, Reachable c → c.history ≠ [] →
      (∀ k, c.history.length ≤ k →
        ∃ ck : Console, Console.iterUp k c = some ck ∧
          ck.cursor = some (c.history.length - 1) ∧
          ck.up = some (ck, false) ∧
          ck.history = c.history) ∧
      (∀ k, c.cursorSucc ≤ k →
        (Console.iterDown k c).cursor = none ∧
        (Console.iterDown k c).down = (Console.iterDown k c, false) ∧
        (Console.iterDown k c).history = c.history) := by
  intro c hr hne
  have hinv : CursorInv c := Console.reachable_inv c hr
  have hlen : c.history.length ≠ 0 := by
    intro h0
    exact hne (List.length_eq_zero.mp h0)
  constructor
  · intro k hk
    obtain ⟨ck, hks, hh, hent, hsh, hckinv, hsettle⟩ := Console.iterUp_settles k c hlen hinv
    have hcur : ck.cursor = some (c.history.length - 1) := by
      refine hsettle ?_
      have := Nat.zero_le c.cursorSucc
      omega
    refine ⟨ck, hks, hcur, ?_, hh⟩
    refine ck.up_settled ?_ ?_
    · rw [hh]
      exact hlen
    · rw [hh]
      exact hcur
  · intro k hk
    obtain ⟨h1, h2, h3, h4⟩ := Console.iterDown_settles k c hk
    exact ⟨h1, (Console.iterDown k c).down_settled h1, h2⟩

/-- C8 witness: at the reachable state with history `["a"]` and live cursor,
one `up()` (= history length) settles the cursor at index 0, the oldest
entry, and a further `up()` returns `false` without moving; zero `down()`
calls (= distance to Live) leave the cursor at `Live` and a further `down()`
returns `false` without moving. -/
theorem C8_navigation_clamps_witness :
    (∃ ck : Console, Console.iterUp 1 ⟨false, "", ["a"], none⟩ = some ck ∧
      ck.cursor = some 0 ∧
      ck.up = some (ck, false) ∧
      ck.history = ["a"]) ∧
    ((Console.iterDown 0 ⟨false, "", ["a"], none⟩).cursor = none ∧
      (Console.iterDown 0 ⟨false, "", ["a"], none⟩).down =
        (Console.iterDown 0 ⟨false, "", ["a"], none⟩, false) ∧
      (Console.iterDown 0 ⟨false, "", ["a"], none⟩).history = ["a"]) := by
  have h := C8_navigation_clamps ⟨false, "", ["a"], none⟩
    Console.reachable_one_confirmed (by decide)
  exact ⟨h.1 1 (by decide), h.2 0 (by decide)⟩

/-- C9: `clear()` empties the buffer only — visibility flag, history and
cursor are unchanged; in particular, clearing while browsing leaves the
displayed text `entry()` unchanged (it clears only the live buffer
underneath). -/
theorem C9_clear_frame :
    ∀ c : Console,
      c.clear = { shown := c.shown, entry := "", history := c.history,
                  cursor := c.cursor } ∧
      (∀ n, c.cursor = some n → (c.clear).entry? = c.entry?) := by
  intro c
  refine ⟨rfl, ?_⟩
  intro n hn
  simp [Console.clear, Console.entry?, hn]

/-- C9 witness: clearing the shown console browsing `["a"]` with buffer
`"buf"` empties only the buffer; the displayed text is still the history
entry. -/
theorem C9_clear_frame_witness :
    Console.clear ⟨true, "buf", ["a"], some 0⟩ = ⟨true, "", ["a"], some 0⟩ ∧
    (Console.clear ⟨true, "buf", ["a"], some 0⟩).entry? =
      Console.entry? ⟨true, "buf", ["a"], some 0⟩ := by
  have h := C9_clear_frame ⟨true, "buf", ["a"], some 0⟩
  exact ⟨h.1, h.2 0 rfl⟩

/-- C10: after every completed call to `confirm` (parse success or failure),
the live buffer field is the empty string (`mem::replace` with
`String::new()`), the cursor is `None`, and therefore `entry()` returns the
empty string. -/
theorem C10_confirm_resets_display :
    ∀ (R : Type) (c c' : Console) (parse : String → R) (r : R),
      c.confirm parse = some (c', r) →
      c'.entry = "" ∧ c'.cursor = none ∧ c'.entry? = some "" := by
  intro R c c' parse r h
  obtain ⟨e, -, rfl, -⟩ := Console.confirm_spec c c' parse r h
  exact ⟨rfl, rfl, rfl⟩

/-- C10 witness: confirming the fresh console leaves an empty buffer, no
cursor, and displayed text `""`. -/
theorem C10_confirm_resets_display_witness :
    (⟨false, "", [""], none⟩ : Console).entry = "" ∧
    (⟨false, "", [""], none⟩ : Console).cursor = none ∧
    Console.entry? ⟨false, "", [""], none⟩ = some "" :=
  C10_confirm_resets_display String Console.new ⟨false, "", [""], none⟩ (fun s => s) "" rfl
